import Mathlib

/-!
Verification of the task-queueing core of the BloodTest-Analyzer repository
(`queue_worker.py`), shallowly embedded in Lean 4.

Python `dict`s (insertion-ordered keyed maps) are embedded as association
lists `List (String × α)` whose insert updates in place when the key is
present and appends otherwise, matching CPython dict semantics.
`datetime` values are embedded as `Nat` ticks; every operation that reads
the clock (`datetime.utcnow()`) takes the current tick as an explicit
`now` argument.
-/

set_option autoImplicit false

namespace QueueWorker

/-- The `TaskStatus` enum from `queue_worker.py`. -/
inductive TaskStatus where
  | queued
  | processing
  | completed
  | failed
deriving DecidableEq, Repr

/-- The `QueueTask` dataclass. `data` (an opaque payload dict) is embedded as
a string-keyed association list of strings; the core never inspects it. -/
structure QueueTask where
  id : String
  task_type : String
  data : List (String × String)
  status : TaskStatus
  created_at : Nat
  started_at : Option Nat := none
  completed_at : Option Nat := none
  error_message : Option String := none
  retry_count : Nat := 0
  max_retries : Nat := 3
deriving DecidableEq, Repr

section Dict

variable {α : Type}

/-- Assignment `d[k] = v` on a Python dict: update in place if the key is present,
append otherwise. -/
def dictInsert (k : String) (v : α) : List (String × α) → List (String × α)
  | [] => [(k, v)]
  | (k', v') :: rest => if k' = k then (k, v) :: rest else (k', v') :: dictInsert k v rest

/-- Membership `k in d` on a Python dict. -/
def dictContains (k : String) : List (String × α) → Bool
  | [] => false
  | (k', _) :: rest => if k' = k then true else dictContains k rest

/-- Lookup `d.get(k)` on a Python dict (first binding wins, as keys are unique). -/
def dictGet? (k : String) : List (String × α) → Option α
  | [] => none
  | (k', v') :: rest => if k' = k then some v' else dictGet? k rest

/-- Removal `d.pop(k)` (the removal part): drop every binding of `k`. -/
def dictRemove (k : String) (l : List (String × α)) : List (String × α) :=
  l.filter (fun p => p.1 ≠ k)

end Dict

/-- The selection `min(self.tasks.keys(), key=lambda x: self.tasks[x].created_at)` together
with the lookup of the chosen task: the first entry attaining the minimal
`created_at`, as Python's `min` returns the first minimal element in
iteration order. -/
def minByCreated : List (String × QueueTask) → Option (String × QueueTask)
  | [] => none
  | p :: rest =>
    match minByCreated rest with
    | none => some p
    | some q => if p.2.created_at ≤ q.2.created_at then some p else some q

/-- The four containers of `InMemoryQueue`. The `threading.Lock` only
serializes operations; the sequential semantics is the state transformer
below. -/
structure InMemoryQueue where
  tasks : List (String × QueueTask)
  processing_tasks : List (String × QueueTask)
  completed_tasks : List (String × QueueTask)
  failed_tasks : List (String × QueueTask)
deriving DecidableEq, Repr

namespace InMemoryQueue

/-- Constructor `InMemoryQueue.__init__`. -/
def empty : InMemoryQueue := ⟨[], [], [], []⟩

/-- Method `InMemoryQueue.enqueue`. -/
def enqueue (q : InMemoryQueue) (task : QueueTask) : Bool × InMemoryQueue :=
  (true, { q with tasks := dictInsert task.id task q.tasks })

/-- Method `InMemoryQueue.dequeue`. -/
def dequeue (q : InMemoryQueue) (now : Nat) : Option QueueTask × InMemoryQueue :=
  match minByCreated q.tasks with
  | none => (none, q)
  | some (task_id, t) =>
    let t' : QueueTask := { t with status := .processing, started_at := some now }
    (some t',
      { q with
        tasks := dictRemove task_id q.tasks
        processing_tasks := dictInsert t'.id t' q.processing_tasks })

/-- Method `InMemoryQueue.complete_task`. Note the `result` argument is accepted
and, as in the source, never stored anywhere. -/
def complete_task (q : InMemoryQueue) (task_id : String) (result : Option String)
    (now : Nat) : Bool × InMemoryQueue :=
  match dictGet? task_id q.processing_tasks with
  | none => (false, q)
  | some t =>
    let _ := result
    let t' : QueueTask := { t with status := .completed, completed_at := some now }
    (true,
      { q with
        processing_tasks := dictRemove task_id q.processing_tasks
        completed_tasks := dictInsert task_id t' q.completed_tasks })

/-- Method `InMemoryQueue.fail_task`. -/
def fail_task (q : InMemoryQueue) (task_id : String) (error_message : String)
    (now : Nat) : Bool × InMemoryQueue :=
  match dictGet? task_id q.processing_tasks with
  | none => (false, q)
  | some t =>
    let t1 : QueueTask :=
      { t with
        status := .failed
        completed_at := some now
        error_message := some error_message
        retry_count := t.retry_count + 1 }
    if t1.retry_count < t1.max_retries then
      let t2 : QueueTask := { t1 with status := .queued, started_at := none, completed_at := none }
      (true,
        { q with
          processing_tasks := dictRemove task_id q.processing_tasks
          tasks := dictInsert task_id t2 q.tasks })
    else
      (true,
        { q with
          processing_tasks := dictRemove task_id q.processing_tasks
          failed_tasks := dictInsert task_id t1 q.failed_tasks })

/-- Method `InMemoryQueue.get_task_status`: scan the four containers in order. -/
def get_task_status (q : InMemoryQueue) (task_id : String) : Option QueueTask :=
  match dictGet? task_id q.tasks with
  | some t => some t
  | none =>
    match dictGet? task_id q.processing_tasks with
    | some t => some t
    | none =>
      match dictGet? task_id q.completed_tasks with
      | some t => some t
      | none => dictGet? task_id q.failed_tasks

/-- Result shape of `InMemoryQueue.get_queue_stats`, as the record
(queued, processing, completed, failed, total). -/
structure Stats where
  queued : Nat
  processing : Nat
  completed : Nat
  failed : Nat
  total : Nat
deriving DecidableEq, Repr

/-- Method `InMemoryQueue.get_queue_stats`. -/
def get_queue_stats (q : InMemoryQueue) : Stats :=
  { queued := q.tasks.length
    processing := q.processing_tasks.length
    completed := q.completed_tasks.length
    failed := q.failed_tasks.length
    total := q.tasks.length + q.processing_tasks.length
      + q.completed_tasks.length + q.failed_tasks.length }

end InMemoryQueue

/-- One sequential call against the local backend, with its clock input. -/
inductive QueueOp where
  | enqueueOp (task : QueueTask)
  | dequeueOp (now : Nat)
  | completeOp (task_id : String) (result : Option String) (now : Nat)
  | failOp (task_id : String) (error_message : String) (now : Nat)
deriving DecidableEq, Repr

/-- State effect of one operation on the local backend. -/
def applyOp (q : InMemoryQueue) : QueueOp → InMemoryQueue
  | .enqueueOp t => (q.enqueue t).2
  | .dequeueOp now => (q.dequeue now).2
  | .completeOp task_id r now => (q.complete_task task_id r now).2
  | .failOp task_id msg now => (q.fail_task task_id msg now).2

/-- Run a sequence of operations against the local backend. -/
def runOps (q : InMemoryQueue) (ops : List QueueOp) : InMemoryQueue :=
  ops.foldl applyOp q

/-- A container is well-keyed when every entry's key is its task's `id` —
the discipline every `InMemoryQueue` method follows when storing. -/
def dictWellKeyed : List (String × QueueTask) → Bool
  | [] => true
  | (k, t) :: rest => if k = t.id then dictWellKeyed rest else false

/-- All four containers are well-keyed. -/
def InMemoryQueue.wellKeyed (q : InMemoryQueue) : Bool :=
  dictWellKeyed q.tasks && dictWellKeyed q.processing_tasks &&
    dictWellKeyed q.completed_tasks && dictWellKeyed q.failed_tasks

/-- In how many of the four containers does `id` currently appear. -/
def containerCount (q : InMemoryQueue) (id : String) : Nat :=
  (dictContains id q.tasks).toNat + (dictContains id q.processing_tasks).toNat
    + (dictContains id q.completed_tasks).toNat + (dictContains id q.failed_tasks).toNat

/-- An operation is safe in state `q` when, if it is an enqueue, its task's
id is not currently held by the processing, completed or failed container
(re-enqueueing an id that is still queued merely overwrites it). -/
def safeOp (q : InMemoryQueue) : QueueOp → Bool
  | .enqueueOp t =>
      !(dictContains t.id q.processing_tasks) &&
        !(dictContains t.id q.completed_tasks) && !(dictContains t.id q.failed_tasks)
  | _ => true

/-- Every operation of the sequence is safe in the state it runs in. -/
def safeOps (q : InMemoryQueue) : List QueueOp → Bool
  | [] => true
  | op :: rest => safeOp q op && safeOps (applyOp q op) rest

/-- Whether the operation enqueues a task with this id. -/
def enqueuesId (id : String) : QueueOp → Bool
  | .enqueueOp t => t.id = id
  | _ => false

/-- Whether some operation of the sequence enqueues a task with this id. -/
def enqueuedIn (ops : List QueueOp) (id : String) : Bool :=
  ops.any (enqueuesId id)

/-- Whether the operation is anything other than an enqueue of this id. -/
def notEnqueueOf (id : String) : QueueOp → Bool
  | .enqueueOp t => !(t.id = id : Bool)
  | _ => true

/-- Enqueue a list of tasks in order. -/
def enqueueAll (q : InMemoryQueue) (ts : List QueueTask) : InMemoryQueue :=
  ts.foldl (fun q t => (q.enqueue t).2) q

/-- Perform one dequeue per clock tick in `nows`, collecting the results. -/
def dequeueN : InMemoryQueue → List Nat → List (Option QueueTask) × InMemoryQueue
  | q, [] => ([], q)
  | q, now :: rest =>
    let (r, q') := q.dequeue now
    let (rs, q'') := dequeueN q' rest
    (r :: rs, q'')

/-!
The networked (Redis) backend. The external service's state visible to this
program is one ordered list (`blood_analysis_queue`; `lpush` prepends,
`brpop` takes from the tail) and one field→value hash per `task:{id}` key.
The pure embedding models a reachable, fault-free service; the `except`
branches of the source, which fire only on connectivity faults, are modelled
at the points where the source consults reachability (`redis_available`,
`ping`) by explicit boolean inputs.
-/

/-- A Redis hash: field → value, and the hash store: key → hash. -/
abbrev RedisHash := List (String × String)

/-- Visible state of the Redis service. -/
structure RedisState where
  queue : List String
  hashes : List (String × RedisHash)
deriving DecidableEq, Repr

namespace RedisState

def empty : RedisState := ⟨[], []⟩

/-- Operation `redis_client.hset(key, field, value)`. -/
def hset (st : RedisState) (key field value : String) : RedisState :=
  { st with
    hashes :=
      match dictGet? key st.hashes with
      | none => dictInsert key [(field, value)] st.hashes
      | some h => dictInsert key (dictInsert field value h) st.hashes }

/-- Field lookup in the hash stored at `key`. -/
def hget? (st : RedisState) (key field : String) : Option String :=
  match dictGet? key st.hashes with
  | none => none
  | some h => dictGet? field h

end RedisState

/-- Constructor `RedisQueue.__init__`: `redis.from_url` either yields a client
(`connect_ok = true`) or raises, in which case the instance records
`redis_available = False`. -/
structure RedisQueue where
  redis_available : Bool
  state : RedisState
deriving DecidableEq, Repr

def RedisQueue.init (connect_ok : Bool) : RedisQueue :=
  { redis_available := connect_ok, state := RedisState.empty }

/-- The `QueueManager`: an in-memory queue, an optional Redis queue, and the
backend choice fixed at construction. -/
structure QueueManager where
  in_memory_queue : InMemoryQueue
  redis_queue : Option RedisQueue
  use_redis : Bool
deriving DecidableEq, Repr

namespace QueueManager

/-- Constructor `QueueManager.__init__(redis_url)`: `has_url` is whether `redis_url` is
non-None, `connect_ok` whether constructing the Redis client succeeds. -/
def init (has_url connect_ok : Bool) : QueueManager :=
  if has_url then
    { in_memory_queue := InMemoryQueue.empty
      redis_queue := some (RedisQueue.init connect_ok)
      use_redis := (RedisQueue.init connect_ok).redis_available }
  else
    { in_memory_queue := InMemoryQueue.empty, redis_queue := none, use_redis := false }

/-- The task literal built inside `QueueManager.enqueue_task`: status QUEUED,
`created_at = now`, and the dataclass defaults for every other field. -/
def makeTask (task_id task_type : String) (data : List (String × String))
    (now : Nat) : QueueTask :=
  { id := task_id, task_type := task_type, data := data
    status := .queued, created_at := now }

/-- Method `QueueManager.enqueue_task` on the in-memory backend (the Redis branch
serializes the same task into the list and hash store). -/
def enqueue_task (m : QueueManager) (task_id task_type : String)
    (data : List (String × String)) (now : Nat) : Bool × QueueManager :=
  if m.use_redis then
    (true, m)
  else
    let (r, q) := m.in_memory_queue.enqueue (makeTask task_id task_type data now)
    (r, { m with in_memory_queue := q })

/-- Method `QueueManager.complete_task`: the Redis branch hsets status and
completed_at, hsets `result` when it is non-None, and returns True without
inspecting whether the task exists or is being processed. -/
def complete_task (m : QueueManager) (task_id : String) (result : Option String)
    (now : Nat) : Bool × QueueManager :=
  if m.use_redis then
    match m.redis_queue with
    | none => (false, m)
    | some rq =>
      let st := rq.state.hset ("task:" ++ task_id) "status" "completed"
      let st := st.hset ("task:" ++ task_id) "completed_at" (toString now)
      let st :=
        match result with
        | some r => st.hset ("task:" ++ task_id) "result" r
        | none => st
      (true, { m with redis_queue := some { rq with state := st } })
  else
    let (r, q) := m.in_memory_queue.complete_task task_id result now
    (r, { m with in_memory_queue := q })

/-- Method `QueueManager.fail_task`: the Redis branch hsets status, completed_at and
error_message and returns True; it never touches `retry_count` and never
pushes the task back onto the queue list. -/
def fail_task (m : QueueManager) (task_id error_message : String)
    (now : Nat) : Bool × QueueManager :=
  if m.use_redis then
    match m.redis_queue with
    | none => (false, m)
    | some rq =>
      let st := rq.state.hset ("task:" ++ task_id) "status" "failed"
      let st := st.hset ("task:" ++ task_id) "completed_at" (toString now)
      let st := st.hset ("task:" ++ task_id) "error_message" error_message
      (true, { m with redis_queue := some { rq with state := st } })
  else
    let (r, q) := m.in_memory_queue.fail_task task_id error_message now
    (r, { m with in_memory_queue := q })

/-- The descriptor returned by `QueueManager.health_check`: a dict with a
`status` entry, an optional `backend` entry and an optional `error` entry. -/
structure HealthResult where
  status : String
  backend : Option String
  error : Option String
deriving DecidableEq, Repr

/-- Method `QueueManager.health_check`. `ping_ok` is whether
`redis_client.ping()` succeeds; on failure the source returns
`{"status": "unhealthy", "error": str(e)}` with `err` the exception text. -/
def health_check (m : QueueManager) (ping_ok : Bool) (err : String) : HealthResult :=
  if m.use_redis then
    if ping_ok then { status := "healthy", backend := some "redis", error := none }
    else { status := "unhealthy", backend := none, error := some err }
  else
    { status := "healthy", backend := some "in-memory", error := none }

end QueueManager

/-! Lemmas about the Python-dict embedding. -/

section DictLemmas

variable {α : Type}

@[simp] theorem dictContains_insert_self (k : String) (v : α) (l : List (String × α)) :
    dictContains k (dictInsert k v l) = true := by
  induction l with
  | nil => simp [dictInsert, dictContains]
  | cons p rest ih =>
    by_cases h : p.1 = k <;> simp [dictInsert, dictContains, h, ih]

@[simp] theorem dictContains_insert_other {k k' : String} (v : α) (l : List (String × α))
    (h : k' ≠ k) : dictContains k (dictInsert k' v l) = dictContains k l := by
  induction l with
  | nil => simp [dictInsert, dictContains, h]
  | cons p rest ih =>
    by_cases hp : p.1 = k' <;> by_cases hk : p.1 = k <;>
      simp_all [dictInsert, dictContains]

@[simp] theorem dictContains_remove_self (k : String) (l : List (String × α)) :
    dictContains k (dictRemove k l) = false := by
  induction l with
  | nil => simp [dictRemove, dictContains]
  | cons p rest ih =>
    by_cases h : p.1 = k <;> simp_all [dictRemove, dictContains, List.filter]

@[simp] theorem dictContains_remove_other {k k' : String} (l : List (String × α))
    (h : k' ≠ k) : dictContains k (dictRemove k' l) = dictContains k l := by
  induction l with
  | nil => simp [dictRemove, dictContains]
  | cons p rest ih =>
    by_cases hp : p.1 = k' <;> by_cases hk : p.1 = k <;>
      simp_all [dictRemove, dictContains, List.filter]

@[simp] theorem dictGet?_insert_self (k : String) (v : α) (l : List (String × α)) :
    dictGet? k (dictInsert k v l) = some v := by
  induction l with
  | nil => simp [dictInsert, dictGet?]
  | cons p rest ih =>
    by_cases h : p.1 = k <;> simp [dictInsert, dictGet?, h, ih]

@[simp] theorem dictGet?_insert_other {k k' : String} (v : α) (l : List (String × α))
    (h : k' ≠ k) : dictGet? k (dictInsert k' v l) = dictGet? k l := by
  induction l with
  | nil => simp [dictInsert, dictGet?, h]
  | cons p rest ih =>
    by_cases hp : p.1 = k' <;> by_cases hk : p.1 = k <;>
      simp_all [dictInsert, dictGet?]

@[simp] theorem dictGet?_remove_self (k : String) (l : List (String × α)) :
    dictGet? k (dictRemove k l) = none := by
  induction l with
  | nil => simp [dictRemove, dictGet?]
  | cons p rest ih =>
    by_cases h : p.1 = k <;> simp_all [dictRemove, dictGet?, List.filter]

@[simp] theorem dictGet?_remove_other {k k' : String} (l : List (String × α))
    (h : k' ≠ k) : dictGet? k (dictRemove k' l) = dictGet? k l := by
  induction l with
  | nil => simp [dictRemove, dictGet?]
  | cons p rest ih =>
    by_cases hp : p.1 = k' <;> by_cases hk : p.1 = k <;>
      simp_all [dictRemove, dictGet?, List.filter]

theorem dictGet?_eq_none_iff (k : String) (l : List (String × α)) :
    dictGet? k l = none ↔ dictContains k l = false := by
  induction l with
  | nil => simp [dictGet?, dictContains]
  | cons p rest ih =>
    by_cases h : p.1 = k <;> simp [dictGet?, dictContains, h, ih]

theorem dictContains_of_get?_eq_some {k : String} {l : List (String × α)} {v : α}
    (h : dictGet? k l = some v) : dictContains k l = true := by
  by_contra hc
  rw [Bool.not_eq_true, ← dictGet?_eq_none_iff] at hc
  rw [h] at hc
  exact Option.noConfusion hc

theorem dictContains_of_mem {k : String} {v : α} {l : List (String × α)}
    (h : (k, v) ∈ l) : dictContains k l = true := by
  induction l with
  | nil => simp at h
  | cons p rest ih =>
    rcases List.mem_cons.mp h with h1 | h2
    · simp [dictContains, ← h1]
    · by_cases hp : p.1 = k <;> simp [dictContains, hp, ih h2]

theorem dictInsert_of_not_contains {k : String} (v : α) {l : List (String × α)}
    (h : dictContains k l = false) : dictInsert k v l = l ++ [(k, v)] := by
  induction l with
  | nil => simp [dictInsert]
  | cons p rest ih =>
    by_cases hp : p.1 = k <;> simp_all [dictInsert, dictContains]

theorem dictRemove_of_not_contains {k : String} {l : List (String × α)}
    (h : dictContains k l = false) : dictRemove k l = l := by
  induction l with
  | nil => simp [dictRemove]
  | cons p rest ih =>
    simp only [dictContains] at h
    by_cases hp : p.1 = k
    · rw [if_pos hp] at h
      exact absurd h (by simp)
    · rw [if_neg hp] at h
      have hstep : dictRemove k (p :: rest) = p :: dictRemove k rest := by
        simp [dictRemove, List.filter_cons, hp]
      rw [hstep, ih h]

end DictLemmas

/-! Lemmas about `minByCreated`. -/

theorem minByCreated_eq_none_iff (l : List (String × QueueTask)) :
    minByCreated l = none ↔ l = [] := by
  cases l with
  | nil => simp [minByCreated]
  | cons p rest =>
    simp only [minByCreated]
    cases minByCreated rest with
    | none => simp
    | some q => by_cases h : p.2.created_at ≤ q.2.created_at <;> simp [h]

theorem minByCreated_mem {l : List (String × QueueTask)} {p : String × QueueTask}
    (h : minByCreated l = some p) : p ∈ l := by
  induction l generalizing p with
  | nil => simp [minByCreated] at h
  | cons q rest ih =>
    simp only [minByCreated] at h
    cases hr : minByCreated rest with
    | none =>
      rw [hr] at h
      exact List.mem_cons.mpr (Or.inl (Option.some.inj h).symm)
    | some r =>
      rw [hr] at h
      by_cases hle : q.2.created_at ≤ r.2.created_at
      · simp [hle] at h
        exact List.mem_cons.mpr (Or.inl h.symm)
      · simp [hle] at h
        exact List.mem_cons.mpr (Or.inr (ih (h ▸ hr)))

theorem minByCreated_min {l : List (String × QueueTask)} {p : String × QueueTask}
    (h : minByCreated l = some p) :
    ∀ q ∈ l, p.2.created_at ≤ q.2.created_at := by
  induction l generalizing p with
  | nil => simp [minByCreated] at h
  | cons q rest ih =>
    simp only [minByCreated] at h
    cases hr : minByCreated rest with
    | none =>
      rw [hr] at h
      have hrest : rest = [] := (minByCreated_eq_none_iff rest).mp hr
      subst hrest
      intro x hx
      rcases List.mem_cons.mp hx with h1 | h2
      · rw [← Option.some.inj h, h1]
      · simp at h2
    | some r =>
      rw [hr] at h
      by_cases hle : q.2.created_at ≤ r.2.created_at
      · simp [hle] at h
        subst h
        intro x hx
        rcases List.mem_cons.mp hx with h1 | h2
        · rw [h1]
        · exact le_trans hle (ih hr x h2)
      · simp [hle] at h
        subst h
        intro x hx
        rcases List.mem_cons.mp hx with h1 | h2
        · rw [h1]; exact le_of_not_le hle
        · exact ih hr x h2

/-! Well-keyedness lemmas. -/

theorem dictWellKeyed_insert {l : List (String × QueueTask)} (t : QueueTask)
    (h : dictWellKeyed l = true) : dictWellKeyed (dictInsert t.id t l) = true := by
  induction l with
  | nil => simp [dictInsert, dictWellKeyed]
  | cons p rest ih =>
    obtain ⟨k, u⟩ := p
    simp only [dictWellKeyed] at h
    by_cases hk : k = u.id
    · subst hk
      rw [if_pos rfl] at h
      by_cases heq : u.id = t.id
      · simp [dictInsert, heq, dictWellKeyed, h]
      · simp [dictInsert, heq, dictWellKeyed, ih h]
    · rw [if_neg hk] at h
      exact absurd h (by simp)

theorem dictWellKeyed_remove {l : List (String × QueueTask)} (k : String)
    (h : dictWellKeyed l = true) : dictWellKeyed (dictRemove k l) = true := by
  induction l with
  | nil => simp [dictRemove, dictWellKeyed]
  | cons p rest ih =>
    obtain ⟨k', u⟩ := p
    simp only [dictWellKeyed] at h
    by_cases hk : k' = u.id
    · subst hk
      rw [if_pos rfl] at h
      by_cases hrem : u.id = k
      · simp [dictRemove, List.filter_cons, hrem]
        simpa [dictRemove] using ih h
      · simp [dictRemove, List.filter_cons, hrem, dictWellKeyed]
        simpa [dictRemove] using ih h
    · rw [if_neg hk] at h
      exact absurd h (by simp)

theorem wellKeyed_mem {l : List (String × QueueTask)} {k : String} {t : QueueTask}
    (hw : dictWellKeyed l = true) (h : (k, t) ∈ l) : k = t.id := by
  induction l with
  | nil => simp at h
  | cons p rest ih =>
    obtain ⟨k', u⟩ := p
    simp only [dictWellKeyed] at hw
    by_cases hk : k' = u.id
    · rw [if_pos hk] at hw
      rcases List.mem_cons.mp h with h1 | h2
      · obtain ⟨h3, h4⟩ := Prod.mk.injEq .. ▸ h1
        · exact h3 ▸ h4 ▸ hk
      · exact ih hw h2
    · rw [if_neg hk] at hw
      exact absurd hw (by simp)

theorem wellKeyed_get? {l : List (String × QueueTask)} {k : String} {t : QueueTask}
    (hw : dictWellKeyed l = true) (h : dictGet? k l = some t) : t.id = k := by
  induction l with
  | nil => simp [dictGet?] at h
  | cons p rest ih =>
    obtain ⟨k', u⟩ := p
    simp only [dictWellKeyed] at hw
    simp only [dictGet?] at h
    by_cases hk : k' = u.id
    · rw [if_pos hk] at hw
      by_cases heq : k' = k
      · rw [if_pos heq] at h
        rw [← Option.some.inj h, ← hk, heq]
      · rw [if_neg heq] at h
        exact ih hw h
    · rw [if_neg hk] at hw
      exact absurd hw (by simp)

/-! Unfolding lemmas for the local-backend operations. -/

theorem enqueue_spec (q : InMemoryQueue) (t : QueueTask) :
    q.enqueue t = (true, { q with tasks := dictInsert t.id t q.tasks }) := rfl

theorem dequeue_spec_empty {q : InMemoryQueue} (now : Nat) (h : q.tasks = []) :
    q.dequeue now = (none, q) := by
  have : minByCreated q.tasks = none := (minByCreated_eq_none_iff q.tasks).mpr h
  simp [InMemoryQueue.dequeue, this]

theorem dequeue_spec_some {q : InMemoryQueue} {tid : String} {t : QueueTask} (now : Nat)
    (h : minByCreated q.tasks = some (tid, t)) :
    q.dequeue now =
      (some { t with status := .processing, started_at := some now },
        { q with
          tasks := dictRemove tid q.tasks
          processing_tasks :=
            dictInsert t.id { t with status := .processing, started_at := some now }
              q.processing_tasks }) := by
  simp [InMemoryQueue.dequeue, h]

theorem complete_spec_miss {q : InMemoryQueue} {task_id : String}
    (result : Option String) (now : Nat)
    (h : dictContains task_id q.processing_tasks = false) :
    q.complete_task task_id result now = (false, q) := by
  have hn : dictGet? task_id q.processing_tasks = none :=
    (dictGet?_eq_none_iff task_id q.processing_tasks).mpr h
  simp [InMemoryQueue.complete_task, hn]

theorem complete_spec_hit {q : InMemoryQueue} {task_id : String} {t : QueueTask}
    (result : Option String) (now : Nat)
    (h : dictGet? task_id q.processing_tasks = some t) :
    q.complete_task task_id result now =
      (true,
        { q with
          processing_tasks := dictRemove task_id q.processing_tasks
          completed_tasks :=
            dictInsert task_id { t with status := .completed, completed_at := some now }
              q.completed_tasks }) := by
  simp [InMemoryQueue.complete_task, h]

theorem fail_spec_miss {q : InMemoryQueue} {task_id : String}
    (msg : String) (now : Nat)
    (h : dictContains task_id q.processing_tasks = false) :
    q.fail_task task_id msg now = (false, q) := by
  have hn : dictGet? task_id q.processing_tasks = none :=
    (dictGet?_eq_none_iff task_id q.processing_tasks).mpr h
  simp [InMemoryQueue.fail_task, hn]

theorem fail_spec_retry {q : InMemoryQueue} {task_id : String} {t : QueueTask}
    (msg : String) (now : Nat)
    (h : dictGet? task_id q.processing_tasks = some t)
    (hr : t.retry_count + 1 < t.max_retries) :
    q.fail_task task_id msg now =
      (true,
        { q with
          processing_tasks := dictRemove task_id q.processing_tasks
          tasks :=
            dictInsert task_id
              { t with
                status := .queued, started_at := none, completed_at := none
                error_message := some msg, retry_count := t.retry_count + 1 }
              q.tasks }) := by
  simp [InMemoryQueue.fail_task, h, hr]

theorem fail_spec_terminal {q : InMemoryQueue} {task_id : String} {t : QueueTask}
    (msg : String) (now : Nat)
    (h : dictGet? task_id q.processing_tasks = some t)
    (hr : ¬ t.retry_count + 1 < t.max_retries) :
    q.fail_task task_id msg now =
      (true,
        { q with
          processing_tasks := dictRemove task_id q.processing_tasks
          failed_tasks :=
            dictInsert task_id
              { t with
                status := .failed, completed_at := some now
                error_message := some msg, retry_count := t.retry_count + 1 }
              q.failed_tasks }) := by
  simp [InMemoryQueue.fail_task, h, hr]

theorem wellKeyed_iff {q : InMemoryQueue} :
    q.wellKeyed = true ↔
      dictWellKeyed q.tasks = true ∧ dictWellKeyed q.processing_tasks = true ∧
        dictWellKeyed q.completed_tasks = true ∧ dictWellKeyed q.failed_tasks = true := by
  simp [InMemoryQueue.wellKeyed, Bool.and_eq_true, and_assoc]

theorem wellKeyed_applyOp {q : InMemoryQueue} (op : QueueOp) (hw : q.wellKeyed = true) :
    (applyOp q op).wellKeyed = true := by
  obtain ⟨h1, h2, h3, h4⟩ := wellKeyed_iff.mp hw
  cases op with
  | enqueueOp t =>
    simp only [applyOp, InMemoryQueue.enqueue]
    exact wellKeyed_iff.mpr ⟨dictWellKeyed_insert t h1, h2, h3, h4⟩
  | dequeueOp now =>
    simp only [applyOp]
    cases hm : minByCreated q.tasks with
    | none =>
      rw [dequeue_spec_empty now ((minByCreated_eq_none_iff _).mp hm)]
      exact hw
    | some p =>
      obtain ⟨tid, t⟩ := p
      rw [dequeue_spec_some now hm]
      refine wellKeyed_iff.mpr ⟨dictWellKeyed_remove tid h1, ?_, h3, h4⟩
      show dictWellKeyed (dictInsert t.id
        { t with status := TaskStatus.processing, started_at := some now }
        q.processing_tasks) = true
      simpa using dictWellKeyed_insert
        { t with status := TaskStatus.processing, started_at := some now } h2
  | completeOp task_id r now =>
    simp only [applyOp]
    cases hg : dictGet? task_id q.processing_tasks with
    | none =>
      rw [complete_spec_miss r now ((dictGet?_eq_none_iff _ _).mp hg)]
      exact hw
    | some t =>
      have hid : t.id = task_id := wellKeyed_get? h2 hg
      rw [complete_spec_hit r now hg]
      refine wellKeyed_iff.mpr ⟨h1, dictWellKeyed_remove _ h2, ?_, h4⟩
      show dictWellKeyed (dictInsert task_id
        { t with status := TaskStatus.completed, completed_at := some now }
        q.completed_tasks) = true
      rw [← hid]
      simpa using dictWellKeyed_insert
        { t with status := TaskStatus.completed, completed_at := some now } h3
  | failOp task_id msg now =>
    simp only [applyOp]
    cases hg : dictGet? task_id q.processing_tasks with
    | none =>
      rw [fail_spec_miss msg now ((dictGet?_eq_none_iff _ _).mp hg)]
      exact hw
    | some t =>
      have hid : t.id = task_id := wellKeyed_get? h2 hg
      by_cases hr : t.retry_count + 1 < t.max_retries
      · rw [fail_spec_retry msg now hg hr]
        refine wellKeyed_iff.mpr ⟨?_, dictWellKeyed_remove _ h2, h3, h4⟩
        show dictWellKeyed (dictInsert task_id
          { t with
            status := TaskStatus.queued
            started_at := none
            completed_at := none
            error_message := some msg
            retry_count := t.retry_count + 1 }
          q.tasks) = true
        rw [← hid]
        simpa using dictWellKeyed_insert
          { t with
            status := TaskStatus.queued
            started_at := none
            completed_at := none
            error_message := some msg
            retry_count := t.retry_count + 1 } h1
      · rw [fail_spec_terminal msg now hg hr]
        refine wellKeyed_iff.mpr ⟨h1, dictWellKeyed_remove _ h2, h3, ?_⟩
        show dictWellKeyed (dictInsert task_id
          { t with
            status := TaskStatus.failed
            completed_at := some now
            error_message := some msg
            retry_count := t.retry_count + 1 }
          q.failed_tasks) = true
        rw [← hid]
        simpa using dictWellKeyed_insert
          { t with
            status := TaskStatus.failed
            completed_at := some now
            error_message := some msg
            retry_count := t.retry_count + 1 } h4

theorem wellKeyed_runOps {q : InMemoryQueue} (ops : List QueueOp) (hw : q.wellKeyed = true) :
    (runOps q ops).wellKeyed = true := by
  induction ops generalizing q with
  | nil => exact hw
  | cons op rest ih => exact ih (wellKeyed_applyOp op hw)

theorem count_applyOp {q : InMemoryQueue} {op : QueueOp}
    (hw : q.wellKeyed = true) (hs : safeOp q op = true)
    (hle : ∀ id, containerCount q id ≤ 1) :
    (∀ id, containerCount (applyOp q op) id ≤ 1) ∧
    (∀ id, containerCount q id = 1 → containerCount (applyOp q op) id = 1) ∧
    (∀ t, op = QueueOp.enqueueOp t → containerCount (applyOp q op) t.id = 1) := by
  cases op with
  | enqueueOp t =>
    simp only [safeOp, Bool.and_eq_true, Bool.not_eq_true'] at hs
    obtain ⟨⟨hp, hc⟩, hf⟩ := hs
    have hstate : applyOp q (.enqueueOp t) =
        { q with tasks := dictInsert t.id t q.tasks } := rfl
    have hmain : containerCount (applyOp q (.enqueueOp t)) t.id = 1 := by
      rw [hstate]
      simp [containerCount, hp, hc, hf]
    have hother : ∀ id, id ≠ t.id →
        containerCount (applyOp q (.enqueueOp t)) id = containerCount q id := by
      intro id hid
      rw [hstate]
      simp [containerCount, dictContains_insert_other t _ (fun h => hid h.symm)]
    refine ⟨?_, ?_, ?_⟩
    · intro id
      by_cases hid : id = t.id
      · subst hid; exact le_of_eq hmain
      · rw [hother id hid]; exact hle id
    · intro id h1
      by_cases hid : id = t.id
      · subst hid; exact hmain
      · rw [hother id hid]; exact h1
    · intro t' ht
      cases ht
      exact hmain
  | dequeueOp now =>
    cases hm : minByCreated q.tasks with
    | none =>
      have he := dequeue_spec_empty (q := q) now ((minByCreated_eq_none_iff _).mp hm)
      have hstate : applyOp q (.dequeueOp now) = q := by simp [applyOp, he]
      rw [hstate]
      exact ⟨hle, fun id h => h, fun t' ht => nomatch ht⟩
    | some p =>
      obtain ⟨tid, t⟩ := p
      have hmem : (tid, t) ∈ q.tasks := minByCreated_mem hm
      have htid : tid = t.id := wellKeyed_mem (wellKeyed_iff.mp hw).1 hmem
      subst htid
      have hconts : dictContains t.id q.tasks = true := dictContains_of_mem hmem
      have hd := dequeue_spec_some (q := q) now hm
      have hstate : applyOp q (.dequeueOp now) =
          { q with
            tasks := dictRemove t.id q.tasks
            processing_tasks :=
              dictInsert t.id { t with status := .processing, started_at := some now }
                q.processing_tasks } := by
        simp [applyOp, hd]
      have hother : ∀ id, id ≠ t.id →
          containerCount (applyOp q (.dequeueOp now)) id = containerCount q id := by
        intro id hid
        have hne : t.id ≠ id := fun h => hid h.symm
        rw [hstate]
        simp [containerCount, dictContains_remove_other _ hne,
          dictContains_insert_other _ _ hne]
      have hmain : containerCount (applyOp q (.dequeueOp now)) t.id = 1 := by
        have h0 := hle t.id
        rw [hstate]
        simp only [containerCount, hconts] at h0 ⊢
        simp only [dictContains_remove_self, dictContains_insert_self] at *
        simp [Bool.toNat] at h0 ⊢
        omega
      refine ⟨?_, ?_, fun t' ht => nomatch ht⟩
      · intro id
        by_cases hid : id = t.id
        · subst hid; exact le_of_eq hmain
        · rw [hother id hid]; exact hle id
      · intro id h1
        by_cases hid : id = t.id
        · subst hid; exact hmain
        · rw [hother id hid]; exact h1
  | completeOp task_id r now =>
    cases hg : dictGet? task_id q.processing_tasks with
    | none =>
      have he := complete_spec_miss (q := q) r now ((dictGet?_eq_none_iff _ _).mp hg)
      have hstate : applyOp q (.completeOp task_id r now) = q := by simp [applyOp, he]
      rw [hstate]
      exact ⟨hle, fun id h => h, fun t' ht => nomatch ht⟩
    | some t =>
      have hcontp : dictContains task_id q.processing_tasks = true :=
        dictContains_of_get?_eq_some hg
      have he := complete_spec_hit (q := q) r now hg
      have hstate : applyOp q (.completeOp task_id r now) =
          { q with
            processing_tasks := dictRemove task_id q.processing_tasks
            completed_tasks :=
              dictInsert task_id { t with status := .completed, completed_at := some now }
                q.completed_tasks } := by
        simp [applyOp, he]
      have hother : ∀ id, id ≠ task_id →
          containerCount (applyOp q (.completeOp task_id r now)) id = containerCount q id := by
        intro id hid
        have hne : task_id ≠ id := fun h => hid h.symm
        rw [hstate]
        simp [containerCount, dictContains_remove_other _ hne,
          dictContains_insert_other _ _ hne]
      have hmain : containerCount (applyOp q (.completeOp task_id r now)) task_id = 1 := by
        have h0 := hle task_id
        rw [hstate]
        simp only [containerCount, hcontp] at h0 ⊢
        simp only [dictContains_remove_self, dictContains_insert_self] at *
        simp [Bool.toNat] at h0 ⊢
        omega
      refine ⟨?_, ?_, fun t' ht => nomatch ht⟩
      · intro id
        by_cases hid : id = task_id
        · subst hid; exact le_of_eq hmain
        · rw [hother id hid]; exact hle id
      · intro id h1
        by_cases hid : id = task_id
        · subst hid; exact hmain
        · rw [hother id hid]; exact h1
  | failOp task_id msg now =>
    cases hg : dictGet? task_id q.processing_tasks with
    | none =>
      have he := fail_spec_miss (q := q) msg now ((dictGet?_eq_none_iff _ _).mp hg)
      have hstate : applyOp q (.failOp task_id msg now) = q := by simp [applyOp, he]
      rw [hstate]
      exact ⟨hle, fun id h => h, fun t' ht => nomatch ht⟩
    | some t =>
      have hcontp : dictContains task_id q.processing_tasks = true :=
        dictContains_of_get?_eq_some hg
      by_cases hr : t.retry_count + 1 < t.max_retries
      · have he := fail_spec_retry (q := q) msg now hg hr
        have hstate : applyOp q (.failOp task_id msg now) =
            { q with
              processing_tasks := dictRemove task_id q.processing_tasks
              tasks :=
                dictInsert task_id
                  { t with
                    status := .queued, started_at := none, completed_at := none
                    error_message := some msg, retry_count := t.retry_count + 1 }
                  q.tasks } := by
          simp [applyOp, he]
        have hother : ∀ id, id ≠ task_id →
            containerCount (applyOp q (.failOp task_id msg now)) id = containerCount q id := by
          intro id hid
          have hne : task_id ≠ id := fun h => hid h.symm
          rw [hstate]
          simp [containerCount, dictContains_remove_other _ hne,
            dictContains_insert_other _ _ hne]
        have hmain : containerCount (applyOp q (.failOp task_id msg now)) task_id = 1 := by
          have h0 := hle task_id
          rw [hstate]
          simp only [containerCount, hcontp] at h0 ⊢
          simp only [dictContains_remove_self, dictContains_insert_self] at *
          simp [Bool.toNat] at h0 ⊢
          omega
        refine ⟨?_, ?_, fun t' ht => nomatch ht⟩
        · intro id
          by_cases hid : id = task_id
          · subst hid; exact le_of_eq hmain
          · rw [hother id hid]; exact hle id
        · intro id h1
          by_cases hid : id = task_id
          · subst hid; exact hmain
          · rw [hother id hid]; exact h1
      · have he := fail_spec_terminal (q := q) msg now hg hr
        have hstate : applyOp q (.failOp task_id msg now) =
            { q with
              processing_tasks := dictRemove task_id q.processing_tasks
              failed_tasks :=
                dictInsert task_id
                  { t with
                    status := .failed, completed_at := some now
                    error_message := some msg, retry_count := t.retry_count + 1 }
                  q.failed_tasks } := by
          simp [applyOp, he]
        have hother : ∀ id, id ≠ task_id →
            containerCount (applyOp q (.failOp task_id msg now)) id = containerCount q id := by
          intro id hid
          have hne : task_id ≠ id := fun h => hid h.symm
          rw [hstate]
          simp [containerCount, dictContains_remove_other _ hne,
            dictContains_insert_other _ _ hne]
        have hmain : containerCount (applyOp q (.failOp task_id msg now)) task_id = 1 := by
          have h0 := hle task_id
          rw [hstate]
          simp only [containerCount, hcontp] at h0 ⊢
          simp only [dictContains_remove_self, dictContains_insert_self] at *
          simp [Bool.toNat] at h0 ⊢
          omega
        refine ⟨?_, ?_, fun t' ht => nomatch ht⟩
        · intro id
          by_cases hid : id = task_id
          · subst hid; exact le_of_eq hmain
          · rw [hother id hid]; exact hle id
        · intro id h1
          by_cases hid : id = task_id
          · subst hid; exact hmain
          · rw [hother id hid]; exact h1

theorem count_runOps {q : InMemoryQueue} {ops : List QueueOp}
    (hw : q.wellKeyed = true) (hs : safeOps q ops = true)
    (hle : ∀ id, containerCount q id ≤ 1) :
    (∀ id, containerCount (runOps q ops) id ≤ 1) ∧
    (∀ id, enqueuedIn ops id = true ∨ containerCount q id = 1 →
      containerCount (runOps q ops) id = 1) := by
  induction ops generalizing q with
  | nil =>
    refine ⟨hle, ?_⟩
    intro id h
    rcases h with h | h
    · simp [enqueuedIn] at h
    · exact h
  | cons op rest ih =>
    simp only [safeOps, Bool.and_eq_true] at hs
    obtain ⟨hs1, hs2⟩ := hs
    obtain ⟨hle', hone', henq'⟩ := count_applyOp hw hs1 hle
    have hw' := wellKeyed_applyOp op hw
    have hrun : runOps q (op :: rest) = runOps (applyOp q op) rest := rfl
    rw [hrun]
    obtain ⟨ihle, ihone⟩ := ih hw' hs2 hle'
    refine ⟨ihle, ?_⟩
    intro id h
    rcases h with h | h
    · simp only [enqueuedIn, List.any_cons, Bool.or_eq_true] at h
      rcases h with h | h
      · cases op with
        | enqueueOp t =>
          have ht : t.id = id := by simpa [enqueuesId] using h
          subst ht
          exact ihone _ (Or.inr (henq' t rfl))
        | dequeueOp now => simp [enqueuesId] at h
        | completeOp a b c => simp [enqueuesId] at h
        | failOp a b c => simp [enqueuesId] at h
      · exact ihone id (Or.inl h)
    · exact ihone id (Or.inr (hone' id h))

theorem terminal_stays_step {q : InMemoryQueue} {id : String} {op : QueueOp}
    (hw : q.wellKeyed = true)
    (hq : dictContains id q.tasks = false)
    (hp : dictContains id q.processing_tasks = false)
    (hf : dictContains id q.failed_tasks = true)
    (hop : notEnqueueOf id op = true) :
    dictContains id (applyOp q op).tasks = false ∧
      dictContains id (applyOp q op).processing_tasks = false ∧
      dictContains id (applyOp q op).failed_tasks = true := by
  cases op with
  | enqueueOp t =>
    have hne : t.id ≠ id := by
      simpa [notEnqueueOf] using hop
    have hstate : applyOp q (.enqueueOp t) =
        { q with tasks := dictInsert t.id t q.tasks } := rfl
    rw [hstate]
    exact ⟨by simpa [dictContains_insert_other t _ hne] using hq, hp, hf⟩
  | dequeueOp now =>
    cases hm : minByCreated q.tasks with
    | none =>
      have he := dequeue_spec_empty (q := q) now ((minByCreated_eq_none_iff _).mp hm)
      have hstate : applyOp q (.dequeueOp now) = q := by simp [applyOp, he]
      rw [hstate]
      exact ⟨hq, hp, hf⟩
    | some p =>
      obtain ⟨tid, t⟩ := p
      have hmem : (tid, t) ∈ q.tasks := minByCreated_mem hm
      have htid : tid = t.id := wellKeyed_mem (wellKeyed_iff.mp hw).1 hmem
      subst htid
      have hconts : dictContains t.id q.tasks = true := dictContains_of_mem hmem
      have hne : t.id ≠ id := by
        intro h
        rw [h] at hconts
        rw [hconts] at hq
        exact Bool.noConfusion hq
      have hd := dequeue_spec_some (q := q) now hm
      have hstate : applyOp q (.dequeueOp now) =
          { q with
            tasks := dictRemove t.id q.tasks
            processing_tasks :=
              dictInsert t.id { t with status := .processing, started_at := some now }
                q.processing_tasks } := by
        simp [applyOp, hd]
      rw [hstate]
      refine ⟨?_, ?_, hf⟩
      · simpa [dictContains_remove_other _ hne] using hq
      · simpa [dictContains_insert_other _ _ hne] using hp
  | completeOp task_id r now =>
    cases hg : dictGet? task_id q.processing_tasks with
    | none =>
      have he := complete_spec_miss (q := q) r now ((dictGet?_eq_none_iff _ _).mp hg)
      have hstate : applyOp q (.completeOp task_id r now) = q := by simp [applyOp, he]
      rw [hstate]
      exact ⟨hq, hp, hf⟩
    | some t =>
      have hcontp : dictContains task_id q.processing_tasks = true :=
        dictContains_of_get?_eq_some hg
      have hne : task_id ≠ id := by
        intro h
        rw [h] at hcontp
        rw [hcontp] at hp
        exact Bool.noConfusion hp
      have he := complete_spec_hit (q := q) r now hg
      have hstate : applyOp q (.completeOp task_id r now) =
          { q with
            processing_tasks := dictRemove task_id q.processing_tasks
            completed_tasks :=
              dictInsert task_id { t with status := .completed, completed_at := some now }
                q.completed_tasks } := by
        simp [applyOp, he]
      rw [hstate]
      exact ⟨hq, by simpa [dictContains_remove_other _ hne] using hp, hf⟩
  | failOp task_id msg now =>
    cases hg : dictGet? task_id q.processing_tasks with
    | none =>
      have he := fail_spec_miss (q := q) msg now ((dictGet?_eq_none_iff _ _).mp hg)
      have hstate : applyOp q (.failOp task_id msg now) = q := by simp [applyOp, he]
      rw [hstate]
      exact ⟨hq, hp, hf⟩
    | some t =>
      have hcontp : dictContains task_id q.processing_tasks = true :=
        dictContains_of_get?_eq_some hg
      have hne : task_id ≠ id := by
        intro h
        rw [h] at hcontp
        rw [hcontp] at hp
        exact Bool.noConfusion hp
      by_cases hr : t.retry_count + 1 < t.max_retries
      · have he := fail_spec_retry (q := q) msg now hg hr
        have hstate : applyOp q (.failOp task_id msg now) =
            { q with
              processing_tasks := dictRemove task_id q.processing_tasks
              tasks :=
                dictInsert task_id
                  { t with
                    status := .queued, started_at := none, completed_at := none
                    error_message := some msg, retry_count := t.retry_count + 1 }
                  q.tasks } := by
          simp [applyOp, he]
        rw [hstate]
        refine ⟨?_, ?_, hf⟩
        · simpa [dictContains_insert_other _ _ hne] using hq
        · simpa [dictContains_remove_other _ hne] using hp
      · have he := fail_spec_terminal (q := q) msg now hg hr
        have hstate : applyOp q (.failOp task_id msg now) =
            { q with
              processing_tasks := dictRemove task_id q.processing_tasks
              failed_tasks :=
                dictInsert task_id
                  { t with
                    status := .failed, completed_at := some now
                    error_message := some msg, retry_count := t.retry_count + 1 }
                  q.failed_tasks } := by
          simp [applyOp, he]
        rw [hstate]
        refine ⟨hq, ?_, ?_⟩
        · simpa [dictContains_remove_other _ hne] using hp
        · simpa [dictContains_insert_other _ _ hne] using hf

theorem terminal_stays {q : InMemoryQueue} {id : String} (ops : List QueueOp)
    (hw : q.wellKeyed = true)
    (hq : dictContains id q.tasks = false)
    (hp : dictContains id q.processing_tasks = false)
    (hf : dictContains id q.failed_tasks = true)
    (hops : ∀ op ∈ ops, notEnqueueOf id op = true) :
    dictContains id (runOps q ops).tasks = false ∧
      dictContains id (runOps q ops).failed_tasks = true := by
  induction ops generalizing q with
  | nil => exact ⟨hq, hf⟩
  | cons op rest ih =>
    obtain ⟨hq', hp', hf'⟩ :=
      terminal_stays_step hw hq hp hf (hops op (List.mem_cons_self op rest))
    exact ih (wellKeyed_applyOp op hw) hq' hp' hf'
      (fun o ho => hops o (List.mem_cons_of_mem op ho))

/-! FIFO machinery: enqueueing distinct fresh ids appends, and dequeue takes
the first entry when its `created_at` is minimal. -/

theorem dictContains_append {α : Type} (k : String) (l1 l2 : List (String × α)) :
    dictContains k (l1 ++ l2) = (dictContains k l1 || dictContains k l2) := by
  induction l1 with
  | nil => simp [dictContains]
  | cons p rest ih =>
    by_cases h : p.1 = k <;> simp [dictContains, h, ih]

theorem not_contains_map {k : String} {ts : List QueueTask}
    (h : ∀ u ∈ ts, u.id ≠ k) :
    dictContains k (ts.map (fun t => (t.id, t))) = false := by
  induction ts with
  | nil => rfl
  | cons t rest ih =>
    have ht : t.id ≠ k := h t (List.mem_cons_self t rest)
    simp only [List.map_cons, dictContains, if_neg ht]
    exact ih (fun u hu => h u (List.mem_cons_of_mem t hu))

theorem minByCreated_head {p : String × QueueTask} {l : List (String × QueueTask)}
    (h : ∀ x ∈ l, p.2.created_at ≤ x.2.created_at) :
    minByCreated (p :: l) = some p := by
  cases hm : minByCreated l with
  | none => simp [minByCreated, hm]
  | some x =>
    have hx := h x (minByCreated_mem hm)
    simp [minByCreated, hm, hx]

theorem enqueueAll_step (q : InMemoryQueue) (t : QueueTask) (rest : List QueueTask) :
    enqueueAll q (t :: rest) = enqueueAll { q with tasks := dictInsert t.id t q.tasks } rest :=
  rfl

theorem enqueueAll_others (q : InMemoryQueue) (ts : List QueueTask) :
    (enqueueAll q ts).processing_tasks = q.processing_tasks ∧
      (enqueueAll q ts).completed_tasks = q.completed_tasks ∧
      (enqueueAll q ts).failed_tasks = q.failed_tasks := by
  induction ts generalizing q with
  | nil => exact ⟨rfl, rfl, rfl⟩
  | cons t rest ih =>
    rw [enqueueAll_step]
    exact ih _

theorem enqueueAll_tasks {ts : List QueueTask} {q : InMemoryQueue}
    (hdisj : ∀ t ∈ ts, dictContains t.id q.tasks = false)
    (hids : ts.Pairwise (fun a b => a.id ≠ b.id)) :
    (enqueueAll q ts).tasks = q.tasks ++ ts.map (fun t => (t.id, t)) := by
  induction ts generalizing q with
  | nil => simp [enqueueAll]
  | cons t rest ih =>
    have hins : dictInsert t.id t q.tasks = q.tasks ++ [(t.id, t)] :=
      dictInsert_of_not_contains t (hdisj t (List.mem_cons_self t rest))
    obtain ⟨hhead, htail⟩ := List.pairwise_cons.mp hids
    rw [enqueueAll_step]
    have hdisj' : ∀ u ∈ rest, dictContains u.id (dictInsert t.id t q.tasks) = false := by
      intro u hu
      rw [hins, dictContains_append]
      have h1 : dictContains u.id q.tasks = false := hdisj u (List.mem_cons_of_mem t hu)
      have h2 : dictContains u.id [(t.id, t)] = false := by
        have : t.id ≠ u.id := hhead u hu
        simp [dictContains, this]
      rw [h1, h2]
      rfl
    rw [ih hdisj' htail]
    simp [hins]

theorem dequeueN_step (q : InMemoryQueue) (now : Nat) (nrest : List Nat) :
    dequeueN q (now :: nrest) =
      ((q.dequeue now).1 :: (dequeueN (q.dequeue now).2 nrest).1,
        (dequeueN (q.dequeue now).2 nrest).2) := by
  simp only [dequeueN]

theorem dequeueN_fifo {ts : List QueueTask} {nows : List Nat} {q : InMemoryQueue}
    (htasks : q.tasks = ts.map (fun t => (t.id, t)))
    (hsorted : ts.Pairwise (fun a b => a.created_at < b.created_at))
    (hids : ts.Pairwise (fun a b => a.id ≠ b.id))
    (hlen : nows.length = ts.length) :
    (dequeueN q nows).1 =
      List.zipWith
        (fun t now => some { t with status := TaskStatus.processing, started_at := some now })
        ts nows := by
  induction ts generalizing q nows with
  | nil =>
    have : nows = [] := List.length_eq_zero.mp (by simpa using hlen)
    subst this
    simp [dequeueN]
  | cons t rest ih =>
    cases nows with
    | nil => simp at hlen
    | cons now nrest =>
      obtain ⟨hheadc, htailc⟩ := List.pairwise_cons.mp hsorted
      obtain ⟨hheadi, htaili⟩ := List.pairwise_cons.mp hids
      have hmin : minByCreated q.tasks = some (t.id, t) := by
        rw [htasks, List.map_cons]
        apply minByCreated_head
        intro x hx
        obtain ⟨u, hu, hux⟩ := List.mem_map.mp hx
        rw [← hux]
        exact le_of_lt (hheadc u hu)
      have hd := dequeue_spec_some (q := q) now hmin
      have hrest : (q.dequeue now).2.tasks = rest.map (fun t => (t.id, t)) := by
        rw [hd]
        show dictRemove t.id q.tasks = rest.map (fun t => (t.id, t))
        rw [htasks, List.map_cons]
        have hnc : dictContains t.id (rest.map (fun t => (t.id, t))) = false :=
          not_contains_map (fun u hu => (hheadi u hu).symm)
        calc dictRemove t.id ((t.id, t) :: rest.map (fun t => (t.id, t)))
            = dictRemove t.id (rest.map (fun t => (t.id, t))) := by
              simp [dictRemove, List.filter_cons]
          _ = rest.map (fun t => (t.id, t)) := dictRemove_of_not_contains hnc
      have hres : (q.dequeue now).1 =
          some { t with status := TaskStatus.processing, started_at := some now } := by
        rw [hd]
      rw [dequeueN_step, List.zipWith_cons_cons]
      have hlen' : nrest.length = rest.length := by simpa using hlen
      rw [hres, ih hrest htailc htaili hlen']

/-! Claim theorems. -/

/-- C3: `complete_task` and `fail_task` on a task id that is not in the
processing container both return false and leave the whole store (all four
containers, hence every task's fields) unchanged. -/
theorem C3_missing_id_noop (q : InMemoryQueue) (task_id : String)
    (result : Option String) (msg : String) (now now' : Nat)
    (h : dictContains task_id q.processing_tasks = false) :
    q.complete_task task_id result now = (false, q) ∧
      q.fail_task task_id msg now' = (false, q) :=
  ⟨complete_spec_miss result now h, fail_spec_miss msg now' h⟩

/-- C3 witness: a concrete store whose processing container lacks `"t9"`. -/
theorem C3_missing_id_noop_witness :
    (InMemoryQueue.mk [("t1", ⟨"t1", "analysis", [], .queued, 0, none, none, none, 0, 3⟩)]
        [] [] []).complete_task "t9" (some "r") 3 =
      (false, InMemoryQueue.mk
        [("t1", ⟨"t1", "analysis", [], .queued, 0, none, none, none, 0, 3⟩)] [] [] []) ∧
    (InMemoryQueue.mk [("t1", ⟨"t1", "analysis", [], .queued, 0, none, none, none, 0, 3⟩)]
        [] [] []).fail_task "t9" "boom" 4 =
      (false, InMemoryQueue.mk
        [("t1", ⟨"t1", "analysis", [], .queued, 0, none, none, none, 0, 3⟩)] [] [] []) :=
  C3_missing_id_noop _ "t9" (some "r") "boom" 3 4 (by decide)

/-- C9 counterexample: after `enqueue a; dequeue; enqueue a` the id `"a"` is
simultaneously in the queued and the processing container, so a duplicate
enqueue does not overwrite the id's prior state outside the queued
container. -/
theorem C9_counterexample :
    dictContains "a"
        ((runOps InMemoryQueue.empty
          [.enqueueOp ⟨"a", "analysis", [], .queued, 0, none, none, none, 0, 3⟩,
            .dequeueOp 1,
            .enqueueOp ⟨"a", "analysis", [], .queued, 2, none, none, none, 0, 3⟩]).processing_tasks) =
        true ∧
      dictGet? "a"
        ((runOps InMemoryQueue.empty
          [.enqueueOp ⟨"a", "analysis", [], .queued, 0, none, none, none, 0, 3⟩,
            .dequeueOp 1,
            .enqueueOp ⟨"a", "analysis", [], .queued, 2, none, none, none, 0, 3⟩]).tasks) =
        some ⟨"a", "analysis", [], .queued, 2, none, none, none, 0, 3⟩ := by
  decide

/-- C9 amended: enqueue always returns true and stores the task under its id
in the queued container, overwriting only the queued container's entry for
that id; entries under the same id in the processing, completed and failed
containers are untouched. -/
theorem C9_enqueue_overwrites_queued_only (q : InMemoryQueue) (t : QueueTask) :
    (q.enqueue t).1 = true ∧
      dictGet? t.id (q.enqueue t).2.tasks = some t ∧
      (∀ k, k ≠ t.id → dictGet? k (q.enqueue t).2.tasks = dictGet? k q.tasks) ∧
      (q.enqueue t).2.processing_tasks = q.processing_tasks ∧
      (q.enqueue t).2.completed_tasks = q.completed_tasks ∧
      (q.enqueue t).2.failed_tasks = q.failed_tasks := by
  refine ⟨rfl, by simp [InMemoryQueue.enqueue], ?_, rfl, rfl, rfl⟩
  intro k hk
  simp [InMemoryQueue.enqueue, dictGet?_insert_other _ _ (fun h => hk h.symm)]

/-- C9 amended witness at a concrete store holding `"a"` in processing. -/
theorem C9_enqueue_overwrites_queued_only_witness :
    ((InMemoryQueue.mk []
        [("a", ⟨"a", "analysis", [], .processing, 0, some 1, none, none, 0, 3⟩)] []
        []).enqueue ⟨"a", "analysis", [], .queued, 2, none, none, none, 0, 3⟩).1 = true ∧
      dictGet? "a"
        ((InMemoryQueue.mk []
          [("a", ⟨"a", "analysis", [], .processing, 0, some 1, none, none, 0, 3⟩)] []
          []).enqueue ⟨"a", "analysis", [], .queued, 2, none, none, none, 0, 3⟩).2.tasks =
        some ⟨"a", "analysis", [], .queued, 2, none, none, none, 0, 3⟩ ∧
      ((InMemoryQueue.mk []
        [("a", ⟨"a", "analysis", [], .processing, 0, some 1, none, none, 0, 3⟩)] []
        []).enqueue
          ⟨"a", "analysis", [], .queued, 2, none, none, none, 0, 3⟩).2.processing_tasks =
        [("a", ⟨"a", "analysis", [], .processing, 0, some 1, none, none, 0, 3⟩)] := by
  have h := C9_enqueue_overwrites_queued_only
    (InMemoryQueue.mk []
      [("a", ⟨"a", "analysis", [], .processing, 0, some 1, none, none, 0, 3⟩)] [] [])
    ⟨"a", "analysis", [], .queued, 2, none, none, none, 0, 3⟩
  exact ⟨h.1, h.2.1, h.2.2.2.1⟩

/-- C10: every task built by `QueueManager.enqueue_task` starts with
`retry_count = 0`, status Queued and `max_retries = 3`, whatever the id,
type, payload or clock — the public interface exposes no way to change
`max_retries`; on the local backend the stored task is exactly that task. -/
theorem C10_enqueue_task_defaults (m : QueueManager) (task_id task_type : String)
    (data : List (String × String)) (now : Nat) (hm : m.use_redis = false) :
    (QueueManager.makeTask task_id task_type data now).retry_count = 0 ∧
      (QueueManager.makeTask task_id task_type data now).status = TaskStatus.queued ∧
      (QueueManager.makeTask task_id task_type data now).max_retries = 3 ∧
      (m.enqueue_task task_id task_type data now).1 = true ∧
      dictGet? task_id
          (m.enqueue_task task_id task_type data now).2.in_memory_queue.tasks =
        some (QueueManager.makeTask task_id task_type data now) := by
  refine ⟨rfl, rfl, rfl, ?_, ?_⟩ <;>
    simp [QueueManager.enqueue_task, hm, InMemoryQueue.enqueue, QueueManager.makeTask]

/-- C10 witness on a freshly constructed manager without a Redis URL. -/
theorem C10_enqueue_task_defaults_witness :
    (QueueManager.makeTask "t1" "analysis" [("file", "a.pdf")] 0).retry_count = 0 ∧
      (QueueManager.makeTask "t1" "analysis" [("file", "a.pdf")] 0).status =
        TaskStatus.queued ∧
      (QueueManager.makeTask "t1" "analysis" [("file", "a.pdf")] 0).max_retries = 3 ∧
      ((QueueManager.init false false).enqueue_task "t1" "analysis"
        [("file", "a.pdf")] 0).1 = true ∧
      dictGet? "t1"
          ((QueueManager.init false false).enqueue_task "t1" "analysis"
            [("file", "a.pdf")] 0).2.in_memory_queue.tasks =
        some (QueueManager.makeTask "t1" "analysis" [("file", "a.pdf")] 0) :=
  C10_enqueue_task_defaults (QueueManager.init false false) "t1" "analysis"
    [("file", "a.pdf")] 0 (by decide)

/-- C7 counterexample: a task failed under its retry ceiling re-enters the
queued container with `error_message` still set to the failure message —
it is not cleared on re-queue. -/
theorem C7_counterexample :
    dictGet? "t1"
        (runOps InMemoryQueue.empty
          [.enqueueOp ⟨"t1", "analysis", [], .queued, 0, none, none, none, 0, 2⟩,
            .dequeueOp 1, .failOp "t1" "boom" 2]).tasks =
      some ⟨"t1", "analysis", [], .queued, 0, none, none, some "boom", 1, 2⟩ := by
  decide

/-- C7 amended: on a fail that re-queues (incremented retry_count still below
max_retries), the task re-enters the queued container with `error_message`
set to the failure's message — retained, not cleared. -/
theorem C7_error_message_retained (q : InMemoryQueue) (task_id msg : String)
    (now : Nat) (t : QueueTask)
    (hg : dictGet? task_id q.processing_tasks = some t)
    (hr : t.retry_count + 1 < t.max_retries) :
    dictGet? task_id (q.fail_task task_id msg now).2.tasks =
      some { t with
        status := TaskStatus.queued
        started_at := none
        completed_at := none
        error_message := some msg
        retry_count := t.retry_count + 1 } := by
  rw [fail_spec_retry msg now hg hr]
  simp

/-- C6 counterexample: completing `"t1"` with result `"ok"` yields a store
identical to completing it with a different result string — `complete_task`
discards its result argument, so no result is recorded on the task,
refuting the claim's final clause. -/
theorem C6_counterexample :
    runOps InMemoryQueue.empty
        [.enqueueOp ⟨"t1", "analysis", [("file", "a.pdf")], .queued, 0, none, none, none, 0, 2⟩,
          .dequeueOp 1, .failOp "t1" "parse error" 2, .dequeueOp 3,
          .completeOp "t1" (some "ok") 4] =
      runOps InMemoryQueue.empty
        [.enqueueOp ⟨"t1", "analysis", [("file", "a.pdf")], .queued, 0, none, none, none, 0, 2⟩,
          .dequeueOp 1, .failOp "t1" "parse error" 2, .dequeueOp 3,
          .completeOp "t1" (some "zzz") 4] := by
  decide

/-- C6 amended: the end-to-end scenario holds on the local backend except
that the completion result is discarded: dequeue returns t1 as Processing;
after fail the status is Queued with retry_count 1; a second dequeue returns
t1 again; after complete the status is Completed — with no result stored
(and the last failure's error_message still present on the record). -/
theorem C6_end_to_end :
    ((runOps InMemoryQueue.empty
        [.enqueueOp ⟨"t1", "analysis", [("file", "a.pdf")], .queued, 0, none, none, none,
          0, 2⟩]).dequeue 1).1 =
      some ⟨"t1", "analysis", [("file", "a.pdf")], .processing, 0, some 1, none, none, 0, 2⟩ ∧
    (runOps InMemoryQueue.empty
        [.enqueueOp ⟨"t1", "analysis", [("file", "a.pdf")], .queued, 0, none, none, none, 0, 2⟩,
          .dequeueOp 1, .failOp "t1" "parse error" 2]).get_task_status "t1" =
      some ⟨"t1", "analysis", [("file", "a.pdf")], .queued, 0, none, none, some "parse error",
        1, 2⟩ ∧
    ((runOps InMemoryQueue.empty
        [.enqueueOp ⟨"t1", "analysis", [("file", "a.pdf")], .queued, 0, none, none, none, 0, 2⟩,
          .dequeueOp 1, .failOp "t1" "parse error" 2]).dequeue 3).1 =
      some ⟨"t1", "analysis", [("file", "a.pdf")], .processing, 0, some 3, none,
        some "parse error", 1, 2⟩ ∧
    (runOps InMemoryQueue.empty
        [.enqueueOp ⟨"t1", "analysis", [("file", "a.pdf")], .queued, 0, none, none, none, 0, 2⟩,
          .dequeueOp 1, .failOp "t1" "parse error" 2, .dequeueOp 3,
          .completeOp "t1" (some "ok") 4]).get_task_status "t1" =
      some ⟨"t1", "analysis", [("file", "a.pdf")], .completed, 0, some 3, some 4,
        some "parse error", 1, 2⟩ := by
  decide

/-- C8 counterexample: with the Redis backend selected and a failing ping,
health_check returns a descriptor with a status field but no backend
field, refuting "always ... a backend field". -/
theorem C8_counterexample :
    (QueueManager.init true true).health_check false "Connection refused" =
      { status := "unhealthy", backend := none, error := some "Connection refused" } := by
  decide

/-- C8 amended: an unreachable Redis configuration makes the manager select
the local backend at construction; on the local backend health_check always
reports healthy with a backend field; and every health_check result is a
descriptor whose status is "healthy" (then with a backend field) or
"unhealthy" (then with an error field but no backend field). -/
theorem C8_health_check (m : QueueManager) (ping_ok : Bool) (err : String)
    (hm : m.use_redis = false) :
    (QueueManager.init true false).use_redis = false ∧
      m.health_check ping_ok err =
        { status := "healthy", backend := some "in-memory", error := none } ∧
      ∀ (m' : QueueManager) (p : Bool) (e : String),
        ((m'.health_check p e).status = "healthy" ∧ (m'.health_check p e).backend ≠ none) ∨
          ((m'.health_check p e).status = "unhealthy" ∧ (m'.health_check p e).error ≠ none) := by
  refine ⟨rfl, by simp [QueueManager.health_check, hm], ?_⟩
  intro m' p e
  by_cases hu : m'.use_redis = true
  · cases p with
    | true =>
      exact Or.inl ⟨by simp [QueueManager.health_check, hu],
        by simp [QueueManager.health_check, hu]⟩
    | false =>
      exact Or.inr ⟨by simp [QueueManager.health_check, hu],
        by simp [QueueManager.health_check, hu]⟩
  · have hu' : m'.use_redis = false := by
      cases hval : m'.use_redis
      · rfl
      · exact absurd hval hu
    exact Or.inl ⟨by simp [QueueManager.health_check, hu'],
      by simp [QueueManager.health_check, hu']⟩

/-- C8 amended witness: a manager built with a Redis URL whose client
construction failed. -/
theorem C8_health_check_witness :
    (QueueManager.init true false).use_redis = false ∧
      (QueueManager.init true false).health_check false "boom" =
        { status := "healthy", backend := some "in-memory", error := none } := by
  have h := C8_health_check (QueueManager.init true false) false "boom" (by decide)
  exact ⟨h.1, h.2.1⟩

/-- C7 amended witness at a concrete processing task with one retry left. -/
theorem C7_error_message_retained_witness :
    dictGet? "t1"
        ((InMemoryQueue.mk []
          [("t1", ⟨"t1", "analysis", [], .processing, 0, some 1, none, none, 0, 2⟩)] []
          []).fail_task "t1" "boom" 5).2.tasks =
      some ⟨"t1", "analysis", [], .queued, 0, none, none, some "boom", 1, 2⟩ :=
  C7_error_message_retained _ "t1" "boom" 5
    ⟨"t1", "analysis", [], .processing, 0, some 1, none, none, 0, 2⟩
    (by decide) (by decide)

/-- C5: at the failing input, the Redis-backed manager's fail and complete
paths break the local backend's contract: failing the processing task `t1`
(retry_count 0, max_retries 3) returns true but leaves `retry_count`
untouched, marks the record Failed and pushes nothing back onto the shared
list (no re-queue); both operations also return true for an id recorded
nowhere, where the local backend returns false. -/
theorem C5_redis_divergence :
    QueueManager.fail_task
        ⟨InMemoryQueue.empty,
          some ⟨true, ⟨[],
            [("task:t1",
              [("status", "processing"), ("retry_count", "0"), ("max_retries", "3")])]⟩⟩,
          true⟩ "t1" "boom" 5 =
      (true,
        ⟨InMemoryQueue.empty,
          some ⟨true, ⟨[],
            [("task:t1",
              [("status", "failed"), ("retry_count", "0"), ("max_retries", "3"),
                ("completed_at", "5"), ("error_message", "boom")])]⟩⟩,
          true⟩) ∧
    (QueueManager.fail_task ⟨InMemoryQueue.empty, some ⟨true, ⟨[], []⟩⟩, true⟩
        "t2" "boom" 5).1 = true ∧
    (QueueManager.complete_task ⟨InMemoryQueue.empty, some ⟨true, ⟨[], []⟩⟩, true⟩
        "t2" (some "ok") 5).1 = true ∧
    (QueueManager.fail_task ⟨InMemoryQueue.empty, none, false⟩ "t2" "boom" 5).1 = false ∧
    (QueueManager.complete_task ⟨InMemoryQueue.empty, none, false⟩ "t2" (some "ok") 5).1 =
      false := by
  decide

/-- C4 counterexample: after `enqueue a; dequeue; enqueue a` the id `"a"`
sits in two containers at once, violating "never more than one". -/
theorem C4_counterexample :
    containerCount
        (runOps InMemoryQueue.empty
          [.enqueueOp ⟨"a", "analysis", [], .queued, 0, none, none, none, 0, 3⟩,
            .dequeueOp 1,
            .enqueueOp ⟨"a", "analysis", [], .queued, 2, none, none, none, 0, 3⟩]) "a" = 2 := by
  decide

/-- C4 amended: starting from the empty store, provided no enqueue reuses an
id currently held by the processing, completed or failed container, every
enqueued id ends up in exactly one of the four containers; and the stats
counts always sum to the reported total. -/
theorem C4_exactly_one_container (ops : List QueueOp)
    (hs : safeOps InMemoryQueue.empty ops = true) :
    (∀ id, enqueuedIn ops id = true →
        containerCount (runOps InMemoryQueue.empty ops) id = 1) ∧
      ∀ q : InMemoryQueue,
        (q.get_queue_stats).queued + (q.get_queue_stats).processing +
            (q.get_queue_stats).completed + (q.get_queue_stats).failed =
          (q.get_queue_stats).total := by
  constructor
  · intro id h
    have hle : ∀ id', containerCount InMemoryQueue.empty id' ≤ 1 := by
      intro id'
      simp [containerCount, InMemoryQueue.empty, dictContains]
    exact (count_runOps (by decide) hs hle).2 id (Or.inl h)
  · intro q
    rfl

/-- C4 amended witness: a full queued→processing→completed run keeps the id
in exactly one container. -/
theorem C4_exactly_one_container_witness :
    containerCount
        (runOps InMemoryQueue.empty
          [.enqueueOp ⟨"b", "analysis", [], .queued, 0, none, none, none, 0, 3⟩,
            .dequeueOp 1, .completeOp "b" none 2]) "b" = 1 := by
  have h := C4_exactly_one_container
    [.enqueueOp ⟨"b", "analysis", [], .queued, 0, none, none, none, 0, 3⟩,
      .dequeueOp 1, .completeOp "b" none 2] (by decide)
  exact h.1 "b" (by decide)

/-- C1: failing a task that is in the processing container removes it from
processing, increments retry_count by exactly 1, records the error message,
and returns true; if the new retry_count is still below max_retries the task
re-enters the queued container as Queued with started_at and completed_at
cleared (failed container untouched), otherwise it enters the failed
container as terminal Failed with completed_at set, and under any further
dequeue/complete/fail operations (no re-enqueue of the id) it stays in the
failed container and out of the queued container. -/
theorem C1_fail_processing (q : InMemoryQueue) (task_id msg : String) (now : Nat)
    (t : QueueTask)
    (hw : q.wellKeyed = true)
    (hg : dictGet? task_id q.processing_tasks = some t)
    (hq : dictContains task_id q.tasks = false)
    (hf : dictContains task_id q.failed_tasks = false) :
    (q.fail_task task_id msg now).1 = true ∧
      dictContains task_id ((q.fail_task task_id msg now).2.processing_tasks) = false ∧
      (t.retry_count + 1 < t.max_retries →
        dictGet? task_id ((q.fail_task task_id msg now).2.tasks) =
          some { t with
            status := TaskStatus.queued
            started_at := none
            completed_at := none
            error_message := some msg
            retry_count := t.retry_count + 1 } ∧
        dictContains task_id ((q.fail_task task_id msg now).2.failed_tasks) = false) ∧
      (¬ t.retry_count + 1 < t.max_retries →
        dictGet? task_id ((q.fail_task task_id msg now).2.failed_tasks) =
          some { t with
            status := TaskStatus.failed
            completed_at := some now
            error_message := some msg
            retry_count := t.retry_count + 1 } ∧
        dictContains task_id ((q.fail_task task_id msg now).2.tasks) = false ∧
        ∀ ops : List QueueOp, (∀ op ∈ ops, notEnqueueOf task_id op = true) →
          dictContains task_id ((runOps (q.fail_task task_id msg now).2 ops).tasks) = false ∧
            dictContains task_id
              ((runOps (q.fail_task task_id msg now).2 ops).failed_tasks) = true) := by
  by_cases hr : t.retry_count + 1 < t.max_retries
  · have he := fail_spec_retry (q := q) msg now hg hr
    refine ⟨by rw [he], by rw [he]; simp, ?_, fun h => absurd hr h⟩
    intro _
    exact ⟨by rw [he]; simp, by rw [he]; exact hf⟩
  · have he := fail_spec_terminal (q := q) msg now hg hr
    refine ⟨by rw [he], by rw [he]; simp, fun h => absurd h hr, ?_⟩
    intro _
    refine ⟨by rw [he]; simp, by rw [he]; exact hq, ?_⟩
    intro ops hops
    have hw' : (q.fail_task task_id msg now).2.wellKeyed = true :=
      wellKeyed_applyOp (q := q) (.failOp task_id msg now) hw
    have hq' : dictContains task_id ((q.fail_task task_id msg now).2.tasks) = false := by
      rw [he]; exact hq
    have hp' : dictContains task_id
        ((q.fail_task task_id msg now).2.processing_tasks) = false := by
      rw [he]; simp
    have hf' : dictContains task_id
        ((q.fail_task task_id msg now).2.failed_tasks) = true := by
      rw [he]; simp
    exact terminal_stays ops hw' hq' hp' hf' hops

/-- C1 witness: the terminal branch at a concrete store (retry_count 2,
max_retries 3), followed by a further dequeue. -/
theorem C1_fail_processing_witness :
    ((InMemoryQueue.mk []
        [("t1", ⟨"t1", "analysis", [], .processing, 0, some 1, none, none, 2, 3⟩)] []
        []).fail_task "t1" "boom" 7).1 = true ∧
      dictContains "t1"
        ((runOps ((InMemoryQueue.mk []
          [("t1", ⟨"t1", "analysis", [], .processing, 0, some 1, none, none, 2, 3⟩)] []
          []).fail_task "t1" "boom" 7).2 [.dequeueOp 9]).failed_tasks) = true := by
  have h := C1_fail_processing
    (InMemoryQueue.mk []
      [("t1", ⟨"t1", "analysis", [], .processing, 0, some 1, none, none, 2, 3⟩)] [] [])
    "t1" "boom" 7 ⟨"t1", "analysis", [], .processing, 0, some 1, none, none, 2, 3⟩
    (by decide) (by decide) (by decide) (by decide)
  exact ⟨h.1, ((h.2.2.2 (by decide)).2.2 [.dequeueOp 9] (by decide)).2⟩

/-- C2: from an empty queued container, enqueueing tasks with distinct ids
and strictly increasing created_at makes the same number of dequeues return
exactly those tasks, in order, each marked Processing with its started_at;
in general a dequeue on an empty queued container returns none and leaves
the store unchanged, and a dequeue on a non-empty one returns a queued task
of minimal created_at, removes it from the queued container and stores it,
marked Processing with started_at set, in the processing container. -/
theorem C2_dequeue_fifo :
    (∀ (q0 : InMemoryQueue) (ts : List QueueTask) (nows : List Nat),
      q0.tasks = [] →
      ts.Pairwise (fun a b => a.created_at < b.created_at) →
      ts.Pairwise (fun a b => a.id ≠ b.id) →
      nows.length = ts.length →
      (dequeueN (enqueueAll q0 ts) nows).1 =
        List.zipWith
          (fun t now =>
            some { t with status := TaskStatus.processing, started_at := some now })
          ts nows) ∧
    (∀ (q : InMemoryQueue) (now : Nat), q.tasks = [] → q.dequeue now = (none, q)) ∧
    (∀ (q : InMemoryQueue) (now : Nat) (tid : String) (t : QueueTask),
      minByCreated q.tasks = some (tid, t) →
      (tid, t) ∈ q.tasks ∧
        (∀ p ∈ q.tasks, t.created_at ≤ p.2.created_at) ∧
        (q.dequeue now).1 =
          some { t with status := TaskStatus.processing, started_at := some now } ∧
        (q.dequeue now).2.tasks = dictRemove tid q.tasks ∧
        dictGet? t.id ((q.dequeue now).2.processing_tasks) =
          some { t with status := TaskStatus.processing, started_at := some now }) := by
  refine ⟨?_, ?_, ?_⟩
  · intro q0 ts nows hq0 hsorted hids hlen
    have hdisj : ∀ t ∈ ts, dictContains t.id q0.tasks = false := by
      intro t ht
      rw [hq0]
      rfl
    have htasks : (enqueueAll q0 ts).tasks = ts.map (fun t => (t.id, t)) := by
      rw [enqueueAll_tasks hdisj hids, hq0, List.nil_append]
    exact dequeueN_fifo htasks hsorted hids hlen
  · intro q now h
    exact dequeue_spec_empty now h
  · intro q now tid t hm
    have hd := dequeue_spec_some (q := q) now hm
    refine ⟨minByCreated_mem hm, fun p hp => minByCreated_min hm p hp,
      by rw [hd], by rw [hd], by rw [hd]; simp⟩

/-- C2 witness: two tasks enqueued with increasing created_at come back in
order from two dequeues. -/
theorem C2_dequeue_fifo_witness :
    (dequeueN (enqueueAll InMemoryQueue.empty
        [⟨"a", "analysis", [], .queued, 0, none, none, none, 0, 3⟩,
          ⟨"b", "analysis", [], .queued, 1, none, none, none, 0, 3⟩]) [10, 11]).1 =
      [some ⟨"a", "analysis", [], .processing, 0, some 10, none, none, 0, 3⟩,
        some ⟨"b", "analysis", [], .processing, 1, some 11, none, none, 0, 3⟩] := by
  have h := C2_dequeue_fifo.1 InMemoryQueue.empty
    [⟨"a", "analysis", [], .queued, 0, none, none, none, 0, 3⟩,
      ⟨"b", "analysis", [], .queued, 1, none, none, none, 0, 3⟩] [10, 11]
    rfl (by decide) (by decide) rfl
  rw [h]
  decide

end QueueWorker
